import Mathlib

/-!
Shallow embedding of the MedLaw document pipeline
(`src/pipeline/ingestion/extractor.py`, `src/pipeline/ingestion/chunker.py`,
`src/pipeline/embed-and-vec-search/embed_and_index.py`) together with proofs
of the specification claims about it.

Strings are modelled at the `List Char` level where that makes the Python
string operations (regex whitespace collapse, `str.split`, `str.strip`)
explicit; `String` wrappers keep the source-level signatures.  Numeric
embedding vectors are modelled with integer entries and the floating-point
row normalization map is abstracted as a parameter (the claims about the
indexer concern counts, ordering and aliasing, never numeric values).
-/

namespace MedLaw

/-! ### extractor.py -/

/-- The whitespace characters matched by Python's `\s` on ASCII input
(space, tab, newline, carriage return, vertical tab, form feed).  Python's
`str.split()`, `str.strip()` and `re.sub(r"\s+", ...)` all use this class. -/
def isPySpace (c : Char) : Bool :=
  c = ' ' || c = '\t' || c = '\n' || c = '\r' || c = '\x0b' || c = '\x0c'

/-- `text.replace("\r", " ")` from `clean_text`. -/
def replaceCR (l : List Char) : List Char :=
  l.map (fun c => if c = '\r' then ' ' else c)

/-- `re.sub(r"\s+", " ", text)`: every maximal run of whitespace becomes a
single space.  The Boolean flag records whether the previous character was
part of a whitespace run (so the run's space has already been emitted). -/
def collapseAux : List Char → Bool → List Char
  | [], _ => []
  | c :: cs, prevWs =>
    if isPySpace c then
      if prevWs then collapseAux cs true else ' ' :: collapseAux cs true
    else c :: collapseAux cs false

def collapseWs (l : List Char) : List Char := collapseAux l false

/-- `text.strip()`: drop leading and trailing whitespace. -/
def stripL (l : List Char) : List Char :=
  ((l.dropWhile isPySpace).reverse.dropWhile isPySpace).reverse

/-- `clean_text` from `extractor.py` on the character-list level:
guard for falsy input, replace `\r` by a space, collapse whitespace runs,
strip the ends. -/
def cleanTextL (l : List Char) : List Char :=
  if l = [] then [] else stripL (collapseWs (replaceCR l))

/-- `clean_text(text)` (`extractor.py`, lines 36–44). -/
def clean_text (s : String) : String := ⟨cleanTextL s.data⟩

/-- `clean_text` applied to a possibly absent argument: `if not text` is
true for `None` as well as for the empty string, so an absent input also
yields `""`. -/
def clean_text_opt : Option String → String
  | none => ""
  | some s => clean_text s

/-- `Path(p).name`: the part of the path after the final `/`. -/
def pathName (p : String) : List Char :=
  (p.data.reverse.takeWhile (fun c => c ≠ '/')).reverse

/-- `Path(p).suffix` (CPython: let `i` be the index of the last dot of the
name; the suffix is `name[i:]` when `0 < i < len(name) - 1`, else `""`). -/
def pathSuffix (p : String) : String :=
  let name := pathName p
  let rtail := name.reverse.takeWhile (fun c => c ≠ '.')
  if rtail.length = name.length then ""
  else
    let i := name.length - 1 - rtail.length
    if 0 < i ∧ i < name.length - 1 then ⟨'.' :: rtail.reverse⟩ else ""

/-- `Path(file_path).suffix.lower()` as computed by `detect_file_type`. -/
def extOf (p : String) : String := ⟨(pathSuffix p).data.map Char.toLower⟩

/-- The recognized image extensions of `detect_file_type`. -/
def imageExts : List String := [".png", ".jpg", ".jpeg", ".tif", ".tiff", ".bmp", ".webp"]

/-- `detect_file_type(file_path)` (`extractor.py`, lines 18–33); the raised
`ValueError` is modelled as an `Except.error` carrying the message. -/
def detect_file_type (p : String) : Except String String :=
  let suffix := extOf p
  if suffix = ".pdf" then .ok "pdf"
  else if suffix = ".docx" then .ok "docx"
  else if suffix = ".txt" then .ok "txt"
  else if suffix ∈ imageExts then .ok "image"
  else .error ("Unsupported file type: " ++ suffix)

/-! ### chunker.py -/

/-- `text.split()` on the character-list level: maximal runs of
non-whitespace characters, in order.  The accumulator holds the reversed
current word. -/
def splitAux : List Char → List Char → List (List Char)
  | [], acc => if acc.isEmpty then [] else [acc.reverse]
  | c :: cs, acc =>
    if isPySpace c then
      if acc.isEmpty then splitAux cs [] else acc.reverse :: splitAux cs []
    else splitAux cs (c :: acc)

def splitWordsL (l : List Char) : List (List Char) := splitAux l []

/-- `split_words(text)` (`chunker.py`, lines 10–14): guard for falsy input,
then `text.split()`. -/
def split_words (s : String) : List String :=
  if s = "" then [] else (splitWordsL s.data).map (fun w => ⟨w⟩)

/-- `" ".join(words)` at the character-list level. -/
def joinSpaceL : List (List Char) → List Char
  | [] => []
  | [w] => w
  | w :: ws => w ++ ' ' :: joinSpaceL ws

/-- `" ".join(words)` on strings. -/
def joinSpaceS : List String → String
  | [] => ""
  | [w] => w
  | w :: ws => w ++ " " ++ joinSpaceS ws

/-- A page range entry produced by `build_page_ranges`. -/
structure PageRange where
  page : Int
  start_offset : Nat
  end_offset : Nat
deriving DecidableEq

/-- `_find_page(page_ranges, start_offset)` (`chunker.py`, lines 36–44):
first range containing the offset, else the last range's page, and `None`
for an absent or empty range list. -/
def find_page (page_ranges : Option (List PageRange)) (start_offset : Nat) : Option Int :=
  match page_ranges with
  | none => none
  | some prs =>
    if prs.isEmpty then none
    else
      match prs.find? (fun r => decide (r.start_offset ≤ start_offset) && decide (start_offset < r.end_offset)) with
      | some r => some r.page
      | none =>
        match prs.getLast? with
        | some r => some r.page
        | none => none

/-- One chunk record as produced by `chunk_text`. -/
structure Chunk where
  doc_id : String
  chunk_index : Nat
  text : String
  start_offset : Nat
  end_offset : Nat
  source : Option String
  page : Option Int
deriving DecidableEq

/-- The `while start < total` loop of `chunk_text` (`chunker.py`,
lines 72–92).  One recursive call per iteration; the `break` on an empty
word slice and the `start += step` advance are as in the source. -/
def chunkLoop (words : List String) (doc_id : String) (chunk_size step : Nat)
    (source : Option String) (page_ranges : Option (List PageRange))
    (hstep : 0 < step) (start index : Nat) : List Chunk :=
  if h : start < words.length then
    let e := min (start + chunk_size) words.length
    let chunk_words := (words.drop start).take (e - start)
    if chunk_words.isEmpty then []
    else
      { doc_id := doc_id
        chunk_index := index
        text := joinSpaceS chunk_words
        start_offset := start
        end_offset := e
        source := source
        page := find_page page_ranges start } ::
        chunkLoop words doc_id chunk_size step source page_ranges hstep (start + step) (index + 1)
  else []
termination_by words.length - start
decreasing_by omega

/-- `chunk_text(text, doc_id, chunk_size=500, overlap=50, source=None,
page_ranges=None)` (`chunker.py`, lines 47–94). -/
def chunk_text (text : String) (doc_id : String)
    (chunk_size : Nat := 500) (overlap : Nat := 50)
    (source : Option String := none)
    (page_ranges : Option (List PageRange) := none) : List Chunk :=
  let words := split_words text
  if words.isEmpty then []
  else
    chunkLoop words doc_id chunk_size (max (chunk_size - overlap) 1) source page_ranges
      (lt_of_lt_of_le Nat.zero_lt_one (le_max_right _ _)) 0 0

/-! ### embed_and_index.py — chunk loading

A document folder is a list of directory entries.  An entry's `content` is
the JSON chunk record stored in the file, or `none` when reading/parsing
the file raises (the `try`/`except` in `load_chunks` logs and skips such a
file).  Only the fields the indexer reads (`doc_id` via `.get`, `text`,
`chunk_index`) are modelled; a record with a missing required field is a
parse failure, i.e. `content = none`. -/

/-- The JSON object stored in a chunk file.  There is no `chunk_id` field:
`chunk_id` is derived at load time only. -/
structure ChunkFileData where
  doc_id : Option String
  chunk_index : Int
  text : String
deriving DecidableEq

/-- A chunk record as returned by `load_chunks`: the file's record plus the
derived `chunk_id` key added by `chunk_data["chunk_id"] = ...`. -/
structure IndexedChunk where
  base : ChunkFileData
  chunk_id : String
deriving DecidableEq

/-- A file inside a document folder. -/
structure DirEntry where
  name : String
  content : Option ChunkFileData
deriving DecidableEq

/-- A document folder `storage/chunks/<doc_id>/`. -/
structure DocFolder where
  doc_id : String
  entries : List DirEntry
deriving DecidableEq

/-- `doc_folder.glob("chunk_*.json")` membership: the name starts with
`chunk_` and ends with `.json`. -/
def matchesChunkGlob (name : String) : Bool :=
  "chunk_".data.isPrefixOf name.data && ".json".data.reverse.isPrefixOf name.data.reverse

/-- `x.stem` for a name ending in `.json`: the name without its final
5-character extension. -/
def stemOf (name : String) : List Char :=
  name.data.take (name.data.length - 5)

/-- `stem.split("_")`: split on every underscore (Python `str.split` with
an explicit separator keeps empty pieces). -/
def splitUnderscoreAux : List Char → List Char → List (List Char)
  | [], acc => [acc.reverse]
  | c :: cs, acc =>
    if c = '_' then acc.reverse :: splitUnderscoreAux cs []
    else splitUnderscoreAux cs (c :: acc)

def splitUnderscore (l : List Char) : List (List Char) := splitUnderscoreAux l []

/-- The value of a decimal digit character. -/
def digitsVal (l : List Char) : Nat :=
  l.foldl (fun n c => n * 10 + (c.toNat - 48)) 0

/-- Python `int(s)`: optional surrounding whitespace, optional sign, then a
non-empty run of decimal digits; anything else raises `ValueError`
(modelled as `none`). -/
def pyInt (s : List Char) : Option Int :=
  match stripL s with
  | '-' :: ds => if ds ≠ [] ∧ ds.all Char.isDigit then some (-(digitsVal ds : Int)) else none
  | '+' :: ds => if ds ≠ [] ∧ ds.all Char.isDigit then some (digitsVal ds : Int) else none
  | ds => if ds ≠ [] ∧ ds.all Char.isDigit then some (digitsVal ds : Int) else none

/-- The sort key `int(x.stem.split("_")[1])` (`embed_and_index.py`,
line 53).  A missing second piece (`IndexError`) or a non-integer piece
(`ValueError`) is an uncaught exception, modelled as `none`. -/
def sortKey (name : String) : Option Int :=
  match (splitUnderscore (stemOf name)).get? 1 with
  | none => none
  | some piece => pyInt piece

/-- The decorate step of `sorted(files, key=...)`: Python computes the key
of every element up front, so one bad filename raises before any file is
read.  Returns `none` exactly when some key computation raises. -/
def keyFiles : List DirEntry → Option (List (Int × DirEntry))
  | [] => some []
  | e :: es =>
    match sortKey e.name with
    | none => none
    | some k =>
      match keyFiles es with
      | none => none
      | some rest => some ((k, e) :: rest)

/-- Key order used by `sorted`. -/
def keyLE (a b : Int × DirEntry) : Prop := a.1 ≤ b.1

instance : DecidableRel keyLE := fun a b => inferInstanceAs (Decidable (a.1 ≤ b.1))

instance : IsTotal (Int × DirEntry) keyLE := ⟨fun a b => le_total a.1 b.1⟩

instance : IsTrans (Int × DirEntry) keyLE := ⟨fun _ _ _ => le_trans⟩

/-- The body of `load_chunks` for one document folder
(`embed_and_index.py`, lines 45–65): glob, sort numerically by the
filename's integer, then read each file, skipping unreadable ones and
attaching the derived `chunk_id`.  A filename whose key computation raises
aborts the whole call (`Except.error`).  `sorted` is stable, as is the
insertion sort used here. -/
def load_doc_chunks (doc_id : String) (entries : List DirEntry) :
    Except String (List IndexedChunk) :=
  let files := entries.filter (fun e => matchesChunkGlob e.name)
  match keyFiles files with
  | none => .error "ValueError: invalid literal for int() while sorting chunk files"
  | some keyed =>
    let sortedKeyed := List.insertionSort keyLE keyed
    .ok (sortedKeyed.filterMap (fun p =>
      p.2.content.map (fun c =>
        { base := c, chunk_id := doc_id ++ "_chunk_" ++ toString c.chunk_index })))

/-- `load_chunks(chunks_dir)` over all document folders
(`embed_and_index.py`, lines 29–68): folders are visited in directory
order, their chunk lists concatenated; an uncaught exception in any folder
aborts the whole call.  The absent-directory soft path (warning and `[]`)
is the `none` case of the argument. -/
def load_chunks (chunks_dir : Option (List DocFolder)) :
    Except String (List IndexedChunk) :=
  match chunks_dir with
  | none => .ok []
  | some folders =>
    folders.foldlM (fun acc f =>
      (load_doc_chunks f.doc_id f.entries).map (fun cs => acc ++ cs)) []

/-! ### embed_and_index.py — index building, persistence, search

Embedding matrices are numpy arrays, which are mutable and aliased; to
state frame claims about `build_index` faithfully the arrays live in an
explicit heap of matrices addressed by handles.  `embeddings.copy()`
allocates a fresh handle with the same value; `faiss.normalize_L2(x)`
mutates the matrix behind the handle `x` in place, row by row.  The
numeric content of the row normalization (`v / ||v||`, floating point) is
abstracted as the parameter `frow`; the claims depend only on row count,
order and aliasing. -/

/-- An embedding vector (entries abstracted to integers). -/
abbrev Vec := List Int

/-- An embedding matrix: one row per chunk. -/
abbrev Mat := List Vec

/-- A heap of numpy arrays; a handle is an index into `arrays`. -/
structure Heap where
  arrays : List Mat
deriving DecidableEq

def Heap.read (h : Heap) (i : Nat) : Mat := h.arrays.getD i []

def Heap.write (h : Heap) (i : Nat) (m : Mat) : Heap := ⟨h.arrays.set i m⟩

/-- `.copy()`: allocate a fresh array with the same value, returning the
new heap and the fresh handle. -/
def Heap.allocCopy (h : Heap) (src : Nat) : Heap × Nat :=
  (⟨h.arrays ++ [h.read src]⟩, h.arrays.length)

/-- `faiss.normalize_L2(x)`: in-place row-wise normalization of the matrix
behind handle `i`, with the numeric map abstracted as `frow`. -/
def normalize_L2 (frow : Vec → Vec) (h : Heap) (i : Nat) : Heap :=
  h.write i ((h.read i).map frow)

/-- The mutable state of an `EmbeddingIndexer`: the FAISS index is `none`
before any build/load, otherwise the list of vectors added to it (in
insertion order, `ntotal` = its length); `chunk_metadata` is the aligned
metadata list. -/
structure IndexerState where
  index : Option Mat
  chunk_metadata : List IndexedChunk
deriving DecidableEq

/-- `index.ntotal`. -/
def ntotal : Option Mat → Nat
  | none => 0
  | some rows => rows.length

/-- `build_index(embeddings, chunks)` (`embed_and_index.py`, lines 90–105).
`embeddings` is a handle into the heap.  If the matrix is empty the call
returns with a warning, leaving state and heap unchanged.  Otherwise a
fresh `IndexFlatIP` is built, a copy of the embeddings is L2-normalized in
place and added to it, and the metadata list is replaced by `chunks`. -/
def build_index (frow : Vec → Vec) (h : Heap) (st : IndexerState)
    (embeddings : Nat) (chunks : List IndexedChunk) : Heap × IndexerState :=
  if (h.read embeddings).length = 0 then (h, st)
  else
    let alloc := h.allocCopy embeddings
    let h2 := normalize_L2 frow alloc.1 alloc.2
    (h2, { index := some (h2.read alloc.2), chunk_metadata := chunks })

/-- The on-disk index directory: each field is the deserialized contents of
the corresponding file when that file exists, `none` when it is absent. -/
structure IndexDir where
  faiss_index : Option Mat
  metadata_pkl : Option (List IndexedChunk)
deriving DecidableEq

/-- `load_index()` (`embed_and_index.py`, lines 124–138).  Absent index
file: warn and return `False`.  Otherwise read the index, then `open` the
metadata file — which raises `FileNotFoundError`, uncaught, when that file
is absent (modelled as `Except.error`). -/
def load_index (dir : IndexDir) (st : IndexerState) :
    Except String (Bool × IndexerState) :=
  match dir.faiss_index with
  | none => .ok (false, st)
  | some rows =>
    match dir.metadata_pkl with
    | none => .error "FileNotFoundError: metadata.pkl"
    | some md => .ok (true, { index := some rows, chunk_metadata := md })

/-- The `filters` argument: `none` is the default `None`; `some fs` is a
dict given as an association list.  Python's `if filters:` is true exactly
for a non-`None`, non-empty dict. -/
def truthyFilters : Option (List (String × String)) → Bool
  | none => false
  | some fs => !fs.isEmpty

/-- `filters["doc_id"]` / `"doc_id" in filters`. -/
def lookupKey (fs : List (String × String)) (key : String) : Option String :=
  (fs.find? (fun p => p.1 = key)).map (fun p => p.2)

/-- `search_k = k * 3 if filters else k` (`embed_and_index.py`, line 149). -/
def searchK (k : Nat) (filters : Option (List (String × String))) : Nat :=
  if truthyFilters filters then k * 3 else k

/-- The inner `continue` condition of the candidate loop:
`"doc_id" in filters and chunk.get("doc_id") != filters["doc_id"]`
(an absent `doc_id` in the chunk compares as `None`, unequal to any filter
string). -/
def filterRejects (filters : Option (List (String × String)))
    (chunk : IndexedChunk) : Bool :=
  match filters with
  | none => false
  | some fs =>
    (lookupKey fs "doc_id").isSome && decide (chunk.base.doc_id ≠ lookupKey fs "doc_id")

/-- A search result: a copy of a metadata entry with the score attached
(scores are opaque pass-through values here). -/
structure SearchResult where
  chunk : IndexedChunk
  score : Int
deriving DecidableEq

/-- The candidate loop of `search` (`embed_and_index.py`, lines 152–166):
skip out-of-range indices, copy the metadata entry, apply the `doc_id`
filter, stop as soon as `k` results are collected.  `count` is
`len(results)` before the current candidate. -/
def searchLoop (metadata : List IndexedChunk)
    (filters : Option (List (String × String))) (k : Nat) :
    List (Int × Int) → Nat → List SearchResult
  | [], _ => []
  | (idx, score) :: rest, count =>
    if idx < 0 ∨ (metadata.length : Int) ≤ idx then
      searchLoop metadata filters k rest count
    else
      match metadata.get? idx.toNat with
      | none => searchLoop metadata filters k rest count
      | some chunk =>
        if truthyFilters filters ∧ filterRejects filters chunk then
          searchLoop metadata filters k rest count
        else
          if count + 1 ≥ k then [{ chunk := chunk, score := score }]
          else { chunk := chunk, score := score } ::
            searchLoop metadata filters k rest (count + 1)

/-- `search(query_text, k=5, filters=None)` (`embed_and_index.py`,
lines 140–169).  The FAISS call `self.index.search(query_embedding, n)` is
abstracted as the oracle `candidates : Nat → List (Int × Int)` mapping the
requested candidate count to the returned `(index, score)` pairs in
score-descending order; the theorems state FAISS's contract on the oracle
as hypotheses.  Query embedding and normalization affect only scores and
are not modelled. -/
def search (st : IndexerState) (candidates : Nat → List (Int × Int))
    (k : Nat) (filters : Option (List (String × String))) : List SearchResult :=
  match st.index with
  | none => []
  | some rows =>
    if rows.length = 0 then []
    else
      searchLoop st.chunk_metadata filters k
        (candidates (min (searchK k filters) rows.length)) 0

/-! ### Lemmas about `clean_text` -/

/-- Every whitespace character of the list is a plain space. -/
def wsOnlySpace (l : List Char) : Prop :=
  ∀ c ∈ l, isPySpace c = true → c = ' '

/-- No two adjacent characters are both whitespace. -/
def noWsRun (l : List Char) : Prop :=
  List.Chain' (fun a b => isPySpace a = false ∨ isPySpace b = false) l

theorem wsOnlySpace_collapseAux (l : List Char) :
    ∀ b, wsOnlySpace (collapseAux l b) := by
  induction l with
  | nil => intro b c hc; simp [collapseAux] at hc
  | cons c cs ih =>
    intro b x hx hws
    by_cases hc : isPySpace c = true
    · cases b with
      | true => simp only [collapseAux, hc] at hx; simp at hx; exact ih true x hx hws
      | false =>
        simp only [collapseAux, hc] at hx; simp at hx
        rcases hx with h | h
        · exact h
        · exact ih true x h hws
    · simp only [collapseAux, hc] at hx; simp at hx
      rcases hx with h | h
      · exact absurd (h ▸ hws) (by simpa using hc)
      · exact ih false x h hws

theorem collapseAux_true_head (l : List Char) :
    ∀ c, (collapseAux l true).head? = some c → isPySpace c = false := by
  induction l with
  | nil => intro c hc; simp [collapseAux] at hc
  | cons a as ih =>
    intro c hc
    by_cases ha : isPySpace a = true
    · simp [collapseAux, ha] at hc; exact ih c hc
    · simp [collapseAux, ha] at hc
      simpa [← hc] using ha

theorem noWsRun_collapseAux (l : List Char) : ∀ b, noWsRun (collapseAux l b) := by
  induction l with
  | nil => intro b; simp [collapseAux, noWsRun]
  | cons a as ih =>
    intro b
    by_cases ha : isPySpace a = true
    · cases b with
      | true => simpa only [collapseAux, ha, if_true] using ih true
      | false =>
        simp only [collapseAux, ha, if_true]
        refine List.chain'_cons'.mpr ⟨?_, ih true⟩
        intro y hy
        exact Or.inr (collapseAux_true_head as y hy)
    · simp only [collapseAux, ha]
      refine List.chain'_cons'.mpr ⟨?_, ih false⟩
      intro y _
      exact Or.inl (by simpa using ha)

theorem collapseAux_fixed (l : List Char) (hs : wsOnlySpace l) (hr : noWsRun l) :
    collapseAux l false = l ∧
      ((∀ c, l.head? = some c → isPySpace c = false) → collapseAux l true = l) := by
  induction l with
  | nil => exact ⟨rfl, fun _ => rfl⟩
  | cons a as ih =>
    have hs' : wsOnlySpace as := fun c hc => hs c (List.mem_cons_of_mem a hc)
    have hr' : noWsRun as := (List.chain'_cons'.mp hr).2
    have hhead := (List.chain'_cons'.mp hr).1
    rcases ih hs' hr' with ⟨ih0, ih1⟩
    by_cases ha : isPySpace a = true
    · have haSp : a = ' ' := hs a (List.mem_cons_self a as) ha
      have htail : collapseAux as true = as := by
        refine ih1 (fun c hc => ?_)
        have := hhead c (by simpa using hc)
        rcases this with h | h
        · exact absurd ha (by simp [h])
        · exact h
      constructor
      · simp only [collapseAux, ha]; simp [htail, haSp]
      · intro hfb
        exact absurd (hfb a (by simp)) (by simp [ha])
    · constructor
      · simp only [collapseAux, ha]; simp [ih0, ha]
      · intro _
        simp only [collapseAux, ha]; simp [ih0, ha]

theorem dropWhile_head_not (p : Char → Bool) (l : List Char) :
    ∀ c, (l.dropWhile p).head? = some c → p c = false := by
  induction l with
  | nil => intro c hc; simp [List.dropWhile] at hc
  | cons a as ih =>
    intro c hc
    by_cases ha : p a = true
    · rw [List.dropWhile_cons_of_pos ha] at hc; exact ih c hc
    · rw [List.dropWhile_cons_of_neg (by simpa using ha)] at hc
      simp only [List.head?_cons, Option.some.injEq] at hc
      simpa [← hc] using ha

theorem mem_stripL (l : List Char) (c : Char) (hc : c ∈ stripL l) : c ∈ l := by
  unfold stripL at hc
  rw [List.mem_reverse] at hc
  have h1 := (List.dropWhile_sublist (l := (l.dropWhile isPySpace).reverse)
    (p := isPySpace)).mem hc
  rw [List.mem_reverse] at h1
  exact (List.dropWhile_sublist (l := l) (p := isPySpace)).mem h1

theorem noWsRun_dropWhile (p : Char → Bool) (l : List Char) (h : noWsRun l) :
    noWsRun (l.dropWhile p) := by
  induction l with
  | nil => simpa using h
  | cons a as ih =>
    by_cases ha : p a = true
    · rw [List.dropWhile_cons_of_pos ha]
      exact ih (List.chain'_cons'.mp h).2
    · rwa [List.dropWhile_cons_of_neg (by simpa using ha)]

theorem noWsRun_reverse (l : List Char) (h : noWsRun l) : noWsRun l.reverse := by
  rw [noWsRun, List.chain'_reverse]
  exact h.imp (fun a b hab => hab.symm)

theorem noWsRun_stripL (l : List Char) (h : noWsRun l) : noWsRun (stripL l) := by
  unfold stripL
  exact noWsRun_reverse _ (noWsRun_dropWhile _ _ (noWsRun_reverse _ (noWsRun_dropWhile _ _ h)))

theorem stripL_head (l : List Char) :
    ∀ c, (stripL l).head? = some c → isPySpace c = false := by
  intro c hc
  unfold stripL at hc
  set y := l.dropWhile isPySpace with hy
  have hpre : (y.reverse.dropWhile isPySpace).reverse <+: y := by
    have h3 : (y.reverse.dropWhile isPySpace).reverse <+: y.reverse.reverse :=
      List.reverse_prefix.mpr (List.dropWhile_suffix isPySpace)
    rwa [List.reverse_reverse] at h3
  rcases hpre with ⟨t, ht⟩
  rcases hnil : (y.reverse.dropWhile isPySpace).reverse with _ | ⟨a, as⟩
  · rw [hnil] at hc; simp at hc
  · rw [hnil] at ht hc
    simp only [List.head?_cons, Option.some.injEq] at hc
    have : y.head? = some a := by rw [← ht]; simp
    exact hc ▸ dropWhile_head_not isPySpace l a (hy ▸ this)

theorem stripL_reverse_head (l : List Char) :
    ∀ c, (stripL l).reverse.head? = some c → isPySpace c = false := by
  intro c hc
  unfold stripL at hc
  rw [List.reverse_reverse] at hc
  exact dropWhile_head_not isPySpace _ c hc

theorem stripL_fixed (l : List Char)
    (h1 : ∀ c, l.head? = some c → isPySpace c = false)
    (h2 : ∀ c, l.reverse.head? = some c → isPySpace c = false) :
    stripL l = l := by
  have d1 : l.dropWhile isPySpace = l := by
    cases l with
    | nil => rfl
    | cons a as =>
      exact List.dropWhile_cons_of_neg (by simp [h1 a (by simp)])
  unfold stripL
  rw [d1]
  have d2 : l.reverse.dropWhile isPySpace = l.reverse := by
    cases hrev : l.reverse with
    | nil => rfl
    | cons a as =>
      exact List.dropWhile_cons_of_neg (by simp [h2 a (by rw [hrev]; simp)])
  rw [d2, List.reverse_reverse]

theorem replaceCR_of_wsOnlySpace (l : List Char) (h : wsOnlySpace l) :
    replaceCR l = l := by
  unfold replaceCR
  rw [List.map_congr_left (g := id), List.map_id]
  intro a ha
  simp only [id]
  by_cases hcr : a = '\r'
  · exact absurd (h a ha (by simp [hcr, isPySpace])) (by simp [hcr])
  · simp [hcr]

/-- The output of `cleanTextL` has all whitespace as single interior
spaces: whitespace chars are `' '`, no two adjacent, none at either end. -/
theorem cleanTextL_shape (l : List Char) :
    wsOnlySpace (cleanTextL l) ∧ noWsRun (cleanTextL l) ∧
      (∀ c, (cleanTextL l).head? = some c → isPySpace c = false) ∧
      (∀ c, (cleanTextL l).reverse.head? = some c → isPySpace c = false) := by
  unfold cleanTextL
  by_cases hl : l = []
  · simp [hl, wsOnlySpace, noWsRun]
  · simp only [hl, if_neg, if_false]
    refine ⟨?_, ?_, stripL_head _, stripL_reverse_head _⟩
    · intro c hc
      exact wsOnlySpace_collapseAux (replaceCR l) false c (mem_stripL _ c hc)
    · exact noWsRun_stripL _ (noWsRun_collapseAux (replaceCR l) false)

theorem cleanTextL_idem (l : List Char) : cleanTextL (cleanTextL l) = cleanTextL l := by
  rcases cleanTextL_shape l with ⟨hs, hr, hh, ht⟩
  set m := cleanTextL l with hm
  by_cases hnil : m = []
  · rw [hnil]; rfl
  · unfold cleanTextL collapseWs
    rw [if_neg hnil, replaceCR_of_wsOnlySpace m hs,
      (collapseAux_fixed m hs hr).1, stripL_fixed m hh ht]

/-! ### Lemmas about `split_words` and `" ".join` -/

/-- Every word produced by `splitAux` is non-empty and whitespace-free. -/
theorem splitAux_valid : ∀ (l acc : List Char), (∀ c ∈ acc, isPySpace c = false) →
    ∀ w ∈ splitAux l acc, w ≠ [] ∧ ∀ c ∈ w, isPySpace c = false := by
  intro l
  induction l with
  | nil =>
    intro acc hacc w hw
    by_cases h : acc.isEmpty
    · simp [splitAux, h] at hw
    · simp only [splitAux, h, if_false, Bool.false_eq_true] at hw
      simp only [List.mem_singleton] at hw
      subst hw
      refine ⟨by simpa [List.isEmpty_iff] using h, fun c hc => hacc c (List.mem_reverse.mp hc)⟩
  | cons c cs ih =>
    intro acc hacc w hw
    by_cases hc : isPySpace c = true
    · by_cases h : acc.isEmpty
      · simp only [splitAux, hc, if_true, h] at hw
        exact ih [] (by simp) w hw
      · simp only [splitAux, hc, if_true, h, Bool.false_eq_true, if_false] at hw
        rcases List.mem_cons.mp hw with h1 | h1
        · subst h1
          refine ⟨by simpa [List.isEmpty_iff] using h, fun x hx => hacc x (List.mem_reverse.mp hx)⟩
        · exact ih [] (by simp) w h1
    · simp only [splitAux, hc, if_false, Bool.false_eq_true] at hw
      refine ih (c :: acc) ?_ w hw
      intro x hx
      rcases List.mem_cons.mp hx with h1 | h1
      · subst h1; simpa using hc
      · exact hacc x h1

/-- `splitAux` consumes a whitespace-free block into the accumulator. -/
theorem splitAux_append : ∀ (w l acc : List Char), (∀ c ∈ w, isPySpace c = false) →
    splitAux (w ++ l) acc = splitAux l (w.reverse ++ acc) := by
  intro w
  induction w with
  | nil => intro l acc _; simp
  | cons c cs ih =>
    intro l acc hw
    have hc : isPySpace c = false := hw c (by simp)
    simp only [List.cons_append, splitAux, hc, Bool.false_eq_true, if_false]
    show splitAux (cs ++ l) (c :: acc) = splitAux l ((c :: cs).reverse ++ acc)
    rw [ih l (c :: acc) (fun x hx => hw x (List.mem_cons_of_mem c hx))]
    simp

/-- Splitting on whitespace is a left inverse of joining with single
spaces, for non-empty whitespace-free words. -/
theorem splitWordsL_joinSpaceL : ∀ wls : List (List Char),
    (∀ w ∈ wls, w ≠ [] ∧ ∀ c ∈ w, isPySpace c = false) →
    splitWordsL (joinSpaceL wls) = wls := by
  intro wls
  induction wls with
  | nil => intro _; rfl
  | cons w tail ih =>
    intro h
    rcases h w (by simp) with ⟨hw0, hwc⟩
    have hrev : w.reverse.isEmpty = false := by
      simpa [List.isEmpty_iff] using hw0
    cases tail with
    | nil =>
      show splitAux w [] = [w]
      rw [← List.append_nil w, splitAux_append w [] [] hwc]
      simp [splitAux, hrev]
    | cons w2 rest =>
      show splitAux (w ++ ' ' :: joinSpaceL (w2 :: rest)) [] = w :: w2 :: rest
      rw [splitAux_append w _ [] hwc]
      have hsp : isPySpace ' ' = true := by decide
      simp only [splitAux, hsp, if_true, List.append_nil, hrev, Bool.false_eq_true, if_false,
        List.reverse_reverse]
      have htail := ih (fun x hx => h x (List.mem_cons_of_mem w hx))
      unfold splitWordsL at htail
      rw [htail]

theorem data_joinSpaceS : ∀ ws : List String,
    (joinSpaceS ws).data = joinSpaceL (ws.map String.data) := by
  intro ws
  induction ws with
  | nil => rfl
  | cons w tail ih =>
    cases tail with
    | nil => rfl
    | cons w2 rest =>
      show (w ++ " " ++ joinSpaceS (w2 :: rest)).data = w.data ++ ' ' :: joinSpaceL ((w2 :: rest).map String.data)
      rw [String.data_append, String.data_append, ih]
      simp

theorem string_mk_data (s : String) : String.mk s.data = s := rfl

/-- Every word returned by `split_words` is non-empty and whitespace-free. -/
theorem split_words_valid (s : String) :
    ∀ w ∈ split_words s, w.data ≠ [] ∧ ∀ c ∈ w.data, isPySpace c = false := by
  intro w hw
  unfold split_words at hw
  by_cases hs : s = ""
  · simp [hs] at hw
  · simp only [hs, if_false, List.mem_map] at hw
    rcases hw with ⟨wl, hwl, hmk⟩
    have hv := splitAux_valid s.data [] (fun c hc => absurd hc (List.not_mem_nil c)) wl hwl
    rw [← hmk]
    exact hv

/-- `split_words (" ".join ws) = ws` for non-empty whitespace-free words. -/
theorem split_words_joinSpaceS (ws : List String)
    (h : ∀ w ∈ ws, w.data ≠ [] ∧ ∀ c ∈ w.data, isPySpace c = false) :
    split_words (joinSpaceS ws) = ws := by
  cases ws with
  | nil => rfl
  | cons w tail =>
    have hne : joinSpaceS (w :: tail) ≠ "" := by
      intro heq
      have hd : (joinSpaceS (w :: tail)).data = [] := by rw [heq]
      rw [data_joinSpaceS] at hd
      cases tail with
      | nil => exact (h w (by simp)).1 hd
      | cons w2 rest => simp [joinSpaceL] at hd
    unfold split_words
    rw [if_neg hne, data_joinSpaceS]
    rw [splitWordsL_joinSpaceL ((w :: tail).map String.data) ?valid]
    case valid =>
      intro wl hwl
      rcases List.mem_map.mp hwl with ⟨x, hx, hdata⟩
      rcases h x hx with ⟨h1, h2⟩
      exact ⟨hdata ▸ h1, hdata ▸ h2⟩
    rw [List.map_map]
    exact List.map_congr_left (fun x _ => string_mk_data x) |>.trans (List.map_id _)

/-! ### Lemmas about `chunkLoop` -/

theorem chunkLoop_nil (words : List String) (d : String) (cs stp : Nat) (sr : Option String)
    (pr : Option (List PageRange)) (hs : 0 < stp) (start idx : Nat)
    (h : ¬ start < words.length) :
    chunkLoop words d cs stp sr pr hs start idx = [] := by
  rw [chunkLoop.eq_def]
  simp [h]

theorem chunk_words_not_empty (words : List String) (cs start : Nat)
    (h : start < words.length) (hcs : 0 < cs) :
    ((words.drop start).take (min (start + cs) words.length - start)).isEmpty = false := by
  have hlen : 0 < ((words.drop start).take (min (start + cs) words.length - start)).length := by
    rw [List.length_take, List.length_drop]
    omega
  rcases heq : ((words.drop start).take (min (start + cs) words.length - start)).isEmpty with _ | _
  · rfl
  · rw [List.isEmpty_iff] at heq
    rw [heq] at hlen
    simp at hlen

theorem chunkLoop_cons (words : List String) (d : String) (cs stp : Nat) (sr : Option String)
    (pr : Option (List PageRange)) (hs : 0 < stp) (start idx : Nat)
    (h : start < words.length) (hcs : 0 < cs) :
    chunkLoop words d cs stp sr pr hs start idx =
      { doc_id := d, chunk_index := idx,
        text := joinSpaceS ((words.drop start).take (min (start + cs) words.length - start)),
        start_offset := start, end_offset := min (start + cs) words.length,
        source := sr, page := find_page pr start } ::
        chunkLoop words d cs stp sr pr hs (start + stp) (idx + 1) := by
  rw [chunkLoop.eq_def]
  simp only [dif_pos h, chunk_words_not_empty words cs start h hcs,
    Bool.false_eq_true, if_false]

theorem chunkLoop_cs_zero (words : List String) (d : String) (stp : Nat) (sr : Option String)
    (pr : Option (List PageRange)) (hs : 0 < stp) (start idx : Nat)
    (h : start < words.length) :
    chunkLoop words d 0 stp sr pr hs start idx = [] := by
  rw [chunkLoop.eq_def]
  simp [Nat.min_eq_left (Nat.le_of_lt h)]

/-- Every chunk emitted by the loop starts inside the word list, ends at
`min (start + chunk_size) total`, and carries the joined word slice. -/
theorem chunkLoop_mem (words : List String) (d : String) (cs stp : Nat) (sr : Option String)
    (pr : Option (List PageRange)) (hs : 0 < stp) :
    ∀ (n start idx : Nat), words.length - start ≤ n →
      ∀ c ∈ chunkLoop words d cs stp sr pr hs start idx,
        c.start_offset < words.length ∧
        c.end_offset = min (c.start_offset + cs) words.length ∧
        c.text = joinSpaceS ((words.drop c.start_offset).take (c.end_offset - c.start_offset)) := by
  intro n
  induction n with
  | zero =>
    intro start idx hbound c hc
    rw [chunkLoop_nil words d cs stp sr pr hs start idx (by omega)] at hc
    simp at hc
  | succ n ih =>
    intro start idx hbound c hc
    by_cases h : start < words.length
    · rcases Nat.eq_zero_or_pos cs with hcs | hcs
      · subst hcs
        rw [chunkLoop_cs_zero words d stp sr pr hs start idx h] at hc
        simp at hc
      · rw [chunkLoop_cons words d cs stp sr pr hs start idx h hcs] at hc
        rcases List.mem_cons.mp hc with h1 | h1
        · subst h1
          exact ⟨h, rfl, rfl⟩
        · exact ih (start + stp) (idx + 1) (by omega) c h1
    · rw [chunkLoop_nil words d cs stp sr pr hs start idx h] at hc
      simp at hc

/-- The `i`-th chunk of the loop: index `idx + i`, window start
`start + i * step`, window end `min (start + i * step + chunk_size) total`. -/
theorem chunkLoop_get (words : List String) (d : String) (cs stp : Nat) (sr : Option String)
    (pr : Option (List PageRange)) (hs : 0 < stp) :
    ∀ (n start idx i : Nat) (c : Chunk), words.length - start ≤ n →
      (chunkLoop words d cs stp sr pr hs start idx).get? i = some c →
      c.chunk_index = idx + i ∧ c.start_offset = start + i * stp ∧
      c.end_offset = min (start + i * stp + cs) words.length := by
  intro n
  induction n with
  | zero =>
    intro start idx i c hbound hget
    rw [chunkLoop_nil words d cs stp sr pr hs start idx (by omega)] at hget
    simp at hget
  | succ n ih =>
    intro start idx i c hbound hget
    by_cases h : start < words.length
    · rcases Nat.eq_zero_or_pos cs with hcs | hcs
      · subst hcs
        rw [chunkLoop_cs_zero words d stp sr pr hs start idx h] at hget
        simp at hget
      · rw [chunkLoop_cons words d cs stp sr pr hs start idx h hcs] at hget
        cases i with
        | zero =>
          simp only [List.get?_cons_zero, Option.some.injEq] at hget
          subst hget
          refine ⟨by simp, by simp, by simp⟩
        | succ i =>
          simp only [List.get?_cons_succ] at hget
          rcases ih (start + stp) (idx + 1) i c (by omega) hget with ⟨h1, h2, h3⟩
          refine ⟨by omega, by rw [h2, Nat.succ_mul]; ring, ?_⟩
          rw [h3, Nat.succ_mul]
          congr 1
          omega
    · rw [chunkLoop_nil words d cs stp sr pr hs start idx h] at hget
      simp at hget

/-! ### Claim C7 -/

/-- C7: for every chunk produced by `chunk_text`,
`end_offset - start_offset` equals the word count of the chunk's text when
split on whitespace (this holds for every chunk, so in particular the claim
with its allowance for a shorter final chunk holds). -/
theorem C7_chunk_word_count (text d : String) (cs ov : Nat) (sr : Option String)
    (pr : Option (List PageRange)) (c : Chunk)
    (hc : c ∈ chunk_text text d cs ov sr pr) :
    c.end_offset - c.start_offset = (split_words c.text).length := by
  simp only [chunk_text] at hc
  by_cases hw : (split_words text).isEmpty = true
  · simp [hw] at hc
  · simp only [hw, Bool.false_eq_true, if_false] at hc
    rcases chunkLoop_mem (split_words text) d cs (max (cs - ov) 1) sr pr _
      ((split_words text).length) 0 0 (by omega) c hc with ⟨hlt, hend, htext⟩
    have hsub : ∀ w ∈ ((split_words text).drop c.start_offset).take
        (c.end_offset - c.start_offset), w.data ≠ [] ∧ ∀ ch ∈ w.data, isPySpace ch = false :=
      fun w hw2 =>
        split_words_valid text w (List.mem_of_mem_drop (List.mem_of_mem_take hw2))
    rw [htext, split_words_joinSpaceS _ hsub, List.length_take, List.length_drop]
    omega

theorem C7_chunk_word_count_witness :
    (⟨"d", 0, "a b", 0, 2, none, none⟩ : Chunk) ∈ chunk_text "a b c" "d" 2 1 none none ∧
    (⟨"d", 0, "a b", 0, 2, none, none⟩ : Chunk).end_offset -
        (⟨"d", 0, "a b", 0, 2, none, none⟩ : Chunk).start_offset =
      (split_words (⟨"d", 0, "a b", 0, 2, none, none⟩ : Chunk).text).length := by
  have hlist : chunk_text "a b c" "d" 2 1 none none =
      [⟨"d", 0, "a b", 0, 2, none, none⟩, ⟨"d", 1, "b c", 1, 3, none, none⟩,
       ⟨"d", 2, "c", 2, 3, none, none⟩] := by
    simp only [chunk_text]
    rw [if_neg (show ¬ ((split_words "a b c").isEmpty = true) from by decide)]
    rw [chunkLoop_cons _ _ _ _ _ _ _ 0 0 (by decide) (by decide)]
    rw [chunkLoop_cons _ _ _ _ _ _ _ _ _ (by decide) (by decide)]
    rw [chunkLoop_cons _ _ _ _ _ _ _ _ _ (by decide) (by decide)]
    rw [chunkLoop_nil _ _ _ _ _ _ _ _ _ (by decide)]
    decide
  have hmem : (⟨"d", 0, "a b", 0, 2, none, none⟩ : Chunk) ∈
      chunk_text "a b c" "d" 2 1 none none := by
    rw [hlist]
    simp
  exact ⟨hmem, C7_chunk_word_count "a b c" "d" 2 1 none none _ hmem⟩

/-! ### Claim C2 -/

/-- C2: `chunk_text` is the sliding window with
`step = max (chunk_size - overlap, 1)` starting at offset 0: the `i`-th
chunk has index `i`, starts at `i * step` and ends at
`min (i * step + chunk_size, total)`; an empty input yields no chunks; and
a 1200-word text with `chunk_size=500, overlap=50` gives exactly 3 chunks
with word ranges `[0,500)`, `[450,950)`, `[900,1200)` and indices 0,1,2. -/
theorem C2_chunk_text_windows (text d : String) :
    (split_words text = [] → ∀ (cs ov : Nat) (sr : Option String)
        (pr : Option (List PageRange)), chunk_text text d cs ov sr pr = []) ∧
    (∀ (cs ov : Nat) (sr : Option String) (pr : Option (List PageRange)) (i : Nat) (c : Chunk),
        (chunk_text text d cs ov sr pr).get? i = some c →
        c.chunk_index = i ∧ c.start_offset = i * max (cs - ov) 1 ∧
        c.end_offset = min (i * max (cs - ov) 1 + cs) (split_words text).length) ∧
    ((split_words text).length = 1200 → ∀ (sr : Option String) (pr : Option (List PageRange)),
        ∃ c0 c1 c2 : Chunk,
          chunk_text text d 500 50 sr pr = [c0, c1, c2] ∧
          c0.chunk_index = 0 ∧ c0.start_offset = 0 ∧ c0.end_offset = 500 ∧
          c1.chunk_index = 1 ∧ c1.start_offset = 450 ∧ c1.end_offset = 950 ∧
          c2.chunk_index = 2 ∧ c2.start_offset = 900 ∧ c2.end_offset = 1200) := by
  refine ⟨fun h cs ov sr pr => ?_, fun cs ov sr pr i c hget => ?_, fun h sr pr => ?_⟩
  · simp [chunk_text, h]
  · simp only [chunk_text] at hget
    by_cases hw : (split_words text).isEmpty = true
    · simp [hw] at hget
    · simp only [hw, Bool.false_eq_true, if_false] at hget
      have hg := chunkLoop_get (split_words text) d cs (max (cs - ov) 1) sr pr _
        ((split_words text).length) 0 0 i c (by omega) hget
      simpa using hg
  · have hne : ¬ ((split_words text).isEmpty = true) := by
      rw [List.isEmpty_iff]
      intro heq
      rw [heq] at h
      simp at h
    have h0 : (0 : Nat) < (split_words text).length := by omega
    have h1 : 0 + max (500 - 50) 1 < (split_words text).length := by rw [h]; decide
    have h2 : 0 + max (500 - 50) 1 + max (500 - 50) 1 < (split_words text).length := by
      rw [h]; decide
    have h3 : ¬ (0 + max (500 - 50) 1 + max (500 - 50) 1 + max (500 - 50) 1 <
        (split_words text).length) := by
      rw [h]; decide
    simp only [chunk_text]
    rw [if_neg hne]
    rw [chunkLoop_cons _ _ _ _ _ _ _ 0 0 h0 (by decide)]
    rw [chunkLoop_cons _ _ _ _ _ _ _ _ _ h1 (by decide)]
    rw [chunkLoop_cons _ _ _ _ _ _ _ _ _ h2 (by decide)]
    rw [chunkLoop_nil _ _ _ _ _ _ _ _ _ h3]
    refine ⟨_, _, _, rfl, rfl, rfl, ?_, rfl, ?_, ?_, rfl, ?_, ?_⟩
    · show min (0 + 500) (split_words text).length = 500
      rw [h]; decide
    · show 0 + max (500 - 50) 1 = 450
      decide
    · show min (0 + max (500 - 50) 1 + 500) (split_words text).length = 950
      rw [h]; decide
    · show 0 + max (500 - 50) 1 + max (500 - 50) 1 = 900
      decide
    · show min (0 + max (500 - 50) 1 + max (500 - 50) 1 + 500) (split_words text).length = 1200
      rw [h]; decide

/-- A concrete 1200-word text for instantiating `C2_chunk_text_windows`. -/
def twelveHundredWords : String := joinSpaceS (List.replicate 1200 "w")

theorem C2_chunk_text_windows_witness :
    chunk_text "" "doc" 500 50 none none = [] ∧
    (∃ c0 c1 c2 : Chunk,
      chunk_text twelveHundredWords "doc" 500 50 none none = [c0, c1, c2] ∧
      c0.chunk_index = 0 ∧ c0.start_offset = 0 ∧ c0.end_offset = 500 ∧
      c1.chunk_index = 1 ∧ c1.start_offset = 450 ∧ c1.end_offset = 950 ∧
      c2.chunk_index = 2 ∧ c2.start_offset = 900 ∧ c2.end_offset = 1200) := by
  have hlen : (split_words twelveHundredWords).length = 1200 := by
    have hv : ∀ w ∈ List.replicate 1200 "w", w.data ≠ [] ∧
        ∀ c ∈ w.data, isPySpace c = false := by
      intro w hw
      rw [List.eq_of_mem_replicate hw]
      exact ⟨by decide, by decide⟩
    rw [twelveHundredWords, split_words_joinSpaceS _ hv, List.length_replicate]
  exact ⟨(C2_chunk_text_windows "" "doc").1 (by decide) 500 50 none none,
    (C2_chunk_text_windows twelveHundredWords "doc").2.2 hlen none none⟩

/-! ### Claim C5 -/

/-- C5: for every input string `s`, `clean_text (clean_text s) = clean_text s`
(whitespace normalization is idempotent), and `clean_text` of an empty or
absent input yields the empty string rather than an error. -/
theorem C5_clean_text_idempotent :
    (∀ s : String, clean_text (clean_text s) = clean_text s) ∧
    clean_text "" = "" ∧ clean_text_opt none = "" := by
  refine ⟨fun s => ?_, rfl, rfl⟩
  show (⟨cleanTextL (clean_text s).data⟩ : String) = ⟨cleanTextL s.data⟩
  have hd : (clean_text s).data = cleanTextL s.data := rfl
  rw [hd, cleanTextL_idem]

/-! ### Claim C6 -/

/-- C6: `detect_file_type` returns the tag matching a recognized lowercase
extension (`.pdf`, `.docx`, `.txt`, or an image extension) and never errors
there; any other extension fails with an error naming the unsupported
extension. -/
theorem C6_detect_file_type (p : String) :
    (extOf p = ".pdf" → detect_file_type p = .ok "pdf") ∧
    (extOf p = ".docx" → detect_file_type p = .ok "docx") ∧
    (extOf p = ".txt" → detect_file_type p = .ok "txt") ∧
    (extOf p ∈ imageExts → detect_file_type p = .ok "image") ∧
    (extOf p ∉ ".pdf" :: ".docx" :: ".txt" :: imageExts →
      detect_file_type p = .error ("Unsupported file type: " ++ extOf p)) := by
  refine ⟨fun h => ?_, fun h => ?_, fun h => ?_, fun h => ?_, fun h => ?_⟩
  · simp [detect_file_type, h]
  · simp [detect_file_type, h]
  · simp [detect_file_type, h]
  · simp only [imageExts, List.mem_cons, List.not_mem_nil, or_false] at h
    rcases h with h | h | h | h | h | h | h <;> simp [detect_file_type, imageExts, h]
  · simp only [imageExts, List.mem_cons, List.not_mem_nil, or_false, not_or] at h
    obtain ⟨h1, h2, h3, h4, h5, h6, h7, h8, h9, h10⟩ := h
    simp [detect_file_type, imageExts, h1, h2, h3, h4, h5, h6, h7, h8, h9, h10]

theorem C6_detect_file_type_witness :
    detect_file_type "doc.xyz" = .error "Unsupported file type: .xyz" ∧
    detect_file_type "scan.JPG" = .ok "image" ∧
    detect_file_type "a/b/report.PDF" = .ok "pdf" := by
  refine ⟨?_, ?_, ?_⟩
  · have h := (C6_detect_file_type "doc.xyz").2.2.2.2 (by decide)
    have h2 : "Unsupported file type: " ++ extOf "doc.xyz" = "Unsupported file type: .xyz" := by
      decide
    rw [h2] at h
    exact h
  · exact (C6_detect_file_type "scan.JPG").2.2.2.1 (by decide)
  · exact (C6_detect_file_type "a/b/report.PDF").1 (by decide)

/-! ### Claim C9 -/

/-- C9: when the index file is present but the metadata file is absent,
`load_index` does not take the documented soft-fail path (which checks only
the index file): it raises while opening the metadata file, so the caller
sees an exception, not `False`. -/
theorem C9_load_index_missing_metadata (dir : IndexDir) (st : IndexerState) (rows : Mat)
    (h1 : dir.faiss_index = some rows) (h2 : dir.metadata_pkl = none) :
    load_index dir st = .error "FileNotFoundError: metadata.pkl" := by
  unfold load_index
  rw [h1, h2]

theorem C9_load_index_missing_metadata_witness :
    load_index ⟨some [[1]], none⟩ ⟨none, []⟩ = .error "FileNotFoundError: metadata.pkl" :=
  C9_load_index_missing_metadata ⟨some [[1]], none⟩ ⟨none, []⟩ [[1]] rfl rfl

/-! ### Claim C10 -/

theorem keyFiles_eq_none {files : List DirEntry} {e : DirEntry}
    (he : e ∈ files) (hk : sortKey e.name = none) : keyFiles files = none := by
  induction files with
  | nil => simp at he
  | cons f fs ih =>
    rcases List.mem_cons.mp he with h | h
    · subst h
      simp [keyFiles, hk]
    · cases hf : sortKey f.name with
      | none => simp [keyFiles, hf]
      | some k => simp [keyFiles, hf, ih h]

/-- C10: a file matching the glob `chunk_*.json` whose name segment after
the underscore is not a decimal integer makes `load_chunks` raise while
computing the numeric sort key, aborting the whole folder load instead of
skipping the one file. -/
theorem C10_load_doc_chunks_bad_name (d : String) (entries : List DirEntry) (e : DirEntry)
    (he : e ∈ entries) (hg : matchesChunkGlob e.name = true) (hk : sortKey e.name = none) :
    load_doc_chunks d entries =
      .error "ValueError: invalid literal for int() while sorting chunk files" := by
  have hmem : e ∈ entries.filter (fun x => matchesChunkGlob x.name) :=
    List.mem_filter.mpr ⟨he, hg⟩
  simp only [load_doc_chunks, keyFiles_eq_none hmem hk]

theorem C10_load_doc_chunks_bad_name_witness :
    load_doc_chunks "doc1"
        [⟨"chunk_0.json", some ⟨some "doc1", 0, "a"⟩⟩,
         ⟨"chunk_abc.json", some ⟨some "doc1", 1, "b"⟩⟩] =
      .error "ValueError: invalid literal for int() while sorting chunk files" :=
  C10_load_doc_chunks_bad_name "doc1" _ ⟨"chunk_abc.json", some ⟨some "doc1", 1, "b"⟩⟩
    (by simp) (by decide) (by decide)

/-! ### Lemmas about the heap and `build_index` -/

theorem heap_read_out (h : Heap) (i : Nat) (hge : ¬ i < h.arrays.length) : h.read i = [] := by
  unfold Heap.read
  rw [List.getD_eq_getElem?_getD, List.getElem?_eq_none (by omega)]
  rfl

theorem write_read_self (h : Heap) (i : Nat) (m : Mat) (hi : i < h.arrays.length) :
    (h.write i m).read i = m := by
  unfold Heap.write Heap.read
  rw [List.getD_eq_getElem?_getD, List.getElem?_set_self (by simpa using hi)]
  rfl

theorem write_read_ne (h : Heap) (i j : Nat) (m : Mat) (hij : i ≠ j) :
    (h.write i m).read j = h.read j := by
  unfold Heap.write Heap.read
  rw [List.getD_eq_getElem?_getD, List.getElem?_set_ne hij, ← List.getD_eq_getElem?_getD]

theorem read_append_lt (l : List Mat) (m : Mat) (i : Nat) (hi : i < l.length) :
    (⟨l ++ [m]⟩ : Heap).read i = (⟨l⟩ : Heap).read i := by
  unfold Heap.read
  rw [List.getD_eq_getElem?_getD, List.getElem?_append_left hi, ← List.getD_eq_getElem?_getD]

theorem read_concat_self (l : List Mat) (m : Mat) :
    (⟨l ++ [m]⟩ : Heap).read l.length = m := by
  unfold Heap.read
  rw [List.getD_eq_getElem?_getD, List.getElem?_concat_length]
  rfl

/-- After a non-empty `build_index`, the indexer state is exactly: a fresh
index holding the row-normalized embedding matrix, and `chunks` as the
metadata list — independent of any prior state. -/
theorem build_index_state (frow : Vec → Vec) (h : Heap) (st : IndexerState)
    (emb : Nat) (chunks : List IndexedChunk) (hz : ¬ (h.read emb).length = 0) :
    (build_index frow h st emb chunks).2 =
      { index := some ((h.read emb).map frow), chunk_metadata := chunks } := by
  obtain ⟨arr⟩ := h
  have hin : emb < arr.length := by
    by_contra hout
    exact hz (by rw [heap_read_out ⟨arr⟩ emb hout]; rfl)
  unfold build_index
  rw [if_neg hz]
  show ({ index := some ((normalize_L2 frow ⟨arr ++ [Heap.read ⟨arr⟩ emb]⟩ arr.length).read
      arr.length), chunk_metadata := chunks } : IndexerState) = _
  have hread : (normalize_L2 frow ⟨arr ++ [Heap.read ⟨arr⟩ emb]⟩ arr.length).read arr.length =
      (Heap.read ⟨arr⟩ emb).map frow := by
    unfold normalize_L2
    rw [write_read_self _ _ _ (by simp), read_concat_self]
  rw [hread]

/-! ### Claim C8 -/

/-- C8: `build_index` L2-normalizes a copy of the embeddings before adding
them: the caller's embedding matrix is unchanged by the call, while the
fresh index holds the row-normalized copy. -/
theorem C8_build_index_copies (frow : Vec → Vec) (h : Heap) (st : IndexerState)
    (emb : Nat) (chunks : List IndexedChunk) :
    (build_index frow h st emb chunks).1.read emb = h.read emb ∧
    ((h.read emb).length ≠ 0 →
      (build_index frow h st emb chunks).2.index = some ((h.read emb).map frow)) := by
  by_cases hz : (h.read emb).length = 0
  · refine ⟨?_, fun hcon => absurd hz hcon⟩
    unfold build_index
    rw [if_pos hz]
  · refine ⟨?_, fun _ => by rw [build_index_state frow h st emb chunks hz]⟩
    obtain ⟨arr⟩ := h
    have hin : emb < arr.length := by
      by_contra hout
      exact hz (by rw [heap_read_out ⟨arr⟩ emb hout]; rfl)
    unfold build_index
    rw [if_neg hz]
    show (normalize_L2 frow ⟨arr ++ [Heap.read ⟨arr⟩ emb]⟩ arr.length).read emb =
      Heap.read ⟨arr⟩ emb
    unfold normalize_L2
    rw [write_read_ne _ _ _ _ (by omega), read_append_lt arr _ emb hin]

theorem C8_build_index_copies_witness :
    (build_index (fun v => v.map (· * 2)) ⟨[[[3, 4]]]⟩ ⟨none, []⟩ 0 []).1.read 0 =
        (⟨[[[3, 4]]]⟩ : Heap).read 0 ∧
    ((⟨[[[3, 4]]]⟩ : Heap).read 0).length ≠ 0 ∧
    (build_index (fun v => v.map (· * 2)) ⟨[[[3, 4]]]⟩ ⟨none, []⟩ 0 []).2.index =
      some (((⟨[[[3, 4]]]⟩ : Heap).read 0).map (fun v => v.map (· * 2))) := by
  have h := C8_build_index_copies (fun v => v.map (· * 2)) ⟨[[[3, 4]]]⟩ ⟨none, []⟩ 0 []
  exact ⟨h.1, by decide, h.2 (by decide)⟩

/-! ### Claim C1 -/

/-- C1: after `build_index` on `N ≥ 1` chunks and `N` embedding rows, the
index holds exactly `N` vectors (the normalized rows, in input order), the
metadata list is `chunks` itself (length `N`, positionally aligned), and
the resulting state does not depend on any prior index/metadata state. -/
theorem C1_build_index_replaces (frow : Vec → Vec) (h : Heap) (st : IndexerState)
    (emb : Nat) (chunks : List IndexedChunk) (N : Nat) (hN : 0 < N)
    (hemb : (h.read emb).length = N) (hch : chunks.length = N) :
    ntotal (build_index frow h st emb chunks).2.index = N ∧
    (build_index frow h st emb chunks).2.index = some ((h.read emb).map frow) ∧
    (build_index frow h st emb chunks).2.chunk_metadata = chunks ∧
    (build_index frow h st emb chunks).2.chunk_metadata.length = N ∧
    (∀ st2 : IndexerState,
      (build_index frow h st2 emb chunks).2 = (build_index frow h st emb chunks).2) := by
  have hz : ¬ (h.read emb).length = 0 := by omega
  have hst := build_index_state frow h st emb chunks hz
  refine ⟨?_, by rw [hst], by rw [hst], by rw [hst, hch], fun st2 => ?_⟩
  · rw [hst]
    show ((h.read emb).map frow).length = N
    rw [List.length_map, hemb]
  · rw [build_index_state frow h st2 emb chunks hz, hst]

theorem C1_build_index_replaces_witness :
    0 < 2 ∧
    ((⟨[[[1], [2]]]⟩ : Heap).read 0).length = 2 ∧
    ntotal (build_index id ⟨[[[1], [2]]]⟩
        ⟨some [[9]], [⟨⟨some "old", 0, "o"⟩, "old_chunk_0"⟩]⟩ 0
        [⟨⟨some "d", 0, "a"⟩, "d_chunk_0"⟩, ⟨⟨some "d", 1, "b"⟩, "d_chunk_1"⟩]).2.index = 2 ∧
    (build_index id ⟨[[[1], [2]]]⟩
        ⟨some [[9]], [⟨⟨some "old", 0, "o"⟩, "old_chunk_0"⟩]⟩ 0
        [⟨⟨some "d", 0, "a"⟩, "d_chunk_0"⟩, ⟨⟨some "d", 1, "b"⟩, "d_chunk_1"⟩]).2.chunk_metadata =
      [⟨⟨some "d", 0, "a"⟩, "d_chunk_0"⟩, ⟨⟨some "d", 1, "b"⟩, "d_chunk_1"⟩] := by
  have h := C1_build_index_replaces id ⟨[[[1], [2]]]⟩
    ⟨some [[9]], [⟨⟨some "old", 0, "o"⟩, "old_chunk_0"⟩]⟩ 0
    [⟨⟨some "d", 0, "a"⟩, "d_chunk_0"⟩, ⟨⟨some "d", 1, "b"⟩, "d_chunk_1"⟩] 2
    (by decide) (by decide) (by decide)
  exact ⟨by decide, by decide, h.1, h.2.2.1⟩

/-- C1 as stated fails at `N = 0`: `build_index` with an empty embeddings
matrix is a no-op that keeps the prior index and metadata, so the index
does not report 0 vectors and the prior state is not replaced. -/
theorem C1_build_index_zero_counterexample :
    ¬ (ntotal (build_index id ⟨[[]]⟩
          ⟨some [[7]], [⟨⟨some "old", 0, "o"⟩, "old_chunk_0"⟩]⟩ 0 []).2.index = 0 ∧
       (build_index id ⟨[[]]⟩
          ⟨some [[7]], [⟨⟨some "old", 0, "o"⟩, "old_chunk_0"⟩]⟩ 0 []).2.chunk_metadata.length
         = 0) := by
  decide

/-! ### Claim C3 -/

theorem keyFiles_some : ∀ {files : List DirEntry} {keyed : List (Int × DirEntry)},
    keyFiles files = some keyed →
    keyed.map Prod.snd = files ∧ ∀ p ∈ keyed, sortKey p.2.name = some p.1 := by
  intro files
  induction files with
  | nil =>
    intro keyed h
    simp only [keyFiles, Option.some.injEq] at h
    subst h
    simp
  | cons f fs ih =>
    intro keyed h
    unfold keyFiles at h
    cases hf : sortKey f.name with
    | none => rw [hf] at h; simp at h
    | some k =>
      rw [hf] at h
      cases hks : keyFiles fs with
      | none => rw [hks] at h; simp at h
      | some rest =>
        rw [hks] at h
        simp only [Option.some.injEq] at h
        subst h
        rcases ih hks with ⟨h1, h2⟩
        refine ⟨by simp [h1], fun p hp => ?_⟩
        rcases List.mem_cons.mp hp with h3 | h3
        · subst h3; exact hf
        · exact h2 p h3

/-- C3: a successful `load_doc_chunks` comes from the glob-matched files
keyed by the integer in their filename, reordered into a sequence sorted
by that integer (a permutation of the folder's matching files, so numeric,
not lexicographic, order); each returned record is the file's own parsed
content with the derived `chunk_id = "<doc_id>_chunk_<chunk_index>"` field
attached (the file contents carry no `chunk_id`; `ChunkFileData` has no
such field, so nothing is written back). -/
theorem C3_load_doc_chunks_sorted (d : String) (entries : List DirEntry)
    (recs : List IndexedChunk) (h : load_doc_chunks d entries = .ok recs) :
    ∃ keyed : List (Int × DirEntry),
      keyFiles (entries.filter (fun e => matchesChunkGlob e.name)) = some keyed ∧
      keyed.map Prod.snd = entries.filter (fun e => matchesChunkGlob e.name) ∧
      (∀ p ∈ keyed, sortKey p.2.name = some p.1) ∧
      List.Pairwise keyLE (List.insertionSort keyLE keyed) ∧
      List.Perm (List.insertionSort keyLE keyed) keyed ∧
      recs = (List.insertionSort keyLE keyed).filterMap (fun p =>
        p.2.content.map (fun c =>
          { base := c, chunk_id := d ++ "_chunk_" ++ toString c.chunk_index })) ∧
      ∀ r ∈ recs, r.chunk_id = d ++ "_chunk_" ++ toString r.base.chunk_index := by
  simp only [load_doc_chunks] at h
  cases hk : keyFiles (entries.filter (fun e => matchesChunkGlob e.name)) with
  | none => rw [hk] at h; simp at h
  | some keyed =>
    rw [hk] at h
    simp only [Except.ok.injEq] at h
    rcases keyFiles_some hk with ⟨h1, h2⟩
    refine ⟨keyed, rfl, h1, h2, List.sorted_insertionSort keyLE keyed,
      List.perm_insertionSort keyLE keyed, h.symm, fun r hr => ?_⟩
    rw [← h] at hr
    rcases List.mem_filterMap.mp hr with ⟨p, _, hp⟩
    rcases Option.map_eq_some'.mp hp with ⟨c, _, hrec⟩
    rw [← hrec]

theorem C3_load_doc_chunks_sorted_witness :
    load_doc_chunks "doc1"
        [⟨"chunk_10.json", some ⟨some "doc1", 10, "j"⟩⟩,
         ⟨"notes.txt", some ⟨some "doc1", 7, "n"⟩⟩,
         ⟨"chunk_2.json", some ⟨some "doc1", 2, "b"⟩⟩] =
      .ok [⟨⟨some "doc1", 2, "b"⟩, "doc1_chunk_2"⟩,
           ⟨⟨some "doc1", 10, "j"⟩, "doc1_chunk_10"⟩] ∧
    ∀ r ∈ [(⟨⟨some "doc1", 2, "b"⟩, "doc1_chunk_2"⟩ : IndexedChunk),
           ⟨⟨some "doc1", 10, "j"⟩, "doc1_chunk_10"⟩],
      r.chunk_id = "doc1" ++ "_chunk_" ++ toString r.base.chunk_index := by
  have heval : load_doc_chunks "doc1"
      [⟨"chunk_10.json", some ⟨some "doc1", 10, "j"⟩⟩,
       ⟨"notes.txt", some ⟨some "doc1", 7, "n"⟩⟩,
       ⟨"chunk_2.json", some ⟨some "doc1", 2, "b"⟩⟩] =
      .ok [⟨⟨some "doc1", 2, "b"⟩, "doc1_chunk_2"⟩,
           ⟨⟨some "doc1", 10, "j"⟩, "doc1_chunk_10"⟩] := by rfl
  rcases C3_load_doc_chunks_sorted "doc1" _ _ heval with
    ⟨keyed, _, _, _, _, _, _, hids⟩
  exact ⟨heval, hids⟩

/-! ### Lemmas about `search` -/

theorem searchLoop_nil_eq (md : List IndexedChunk) (f : Option (List (String × String)))
    (k count : Nat) : searchLoop md f k [] count = [] := rfl

theorem searchLoop_cons_eq (md : List IndexedChunk) (f : Option (List (String × String)))
    (k : Nat) (idx score : Int) (rest : List (Int × Int)) (count : Nat) :
    searchLoop md f k ((idx, score) :: rest) count =
      if idx < 0 ∨ (md.length : Int) ≤ idx then searchLoop md f k rest count
      else
        match md.get? idx.toNat with
        | none => searchLoop md f k rest count
        | some chunk =>
          if truthyFilters f ∧ filterRejects f chunk then searchLoop md f k rest count
          else if count + 1 ≥ k then [{ chunk := chunk, score := score }]
          else { chunk := chunk, score := score } :: searchLoop md f k rest (count + 1) := rfl

theorem searchLoop_skip_eq (md : List IndexedChunk) (f : Option (List (String × String)))
    (k : Nat) (idx score : Int) (rest : List (Int × Int)) (count : Nat)
    (h : idx < 0 ∨ (md.length : Int) ≤ idx) :
    searchLoop md f k ((idx, score) :: rest) count = searchLoop md f k rest count := by
  rw [searchLoop_cons_eq, if_pos h]

theorem searchLoop_cons_none_eq (md : List IndexedChunk) (f : Option (List (String × String)))
    (k : Nat) (idx score : Int) (rest : List (Int × Int)) (count : Nat)
    (hnn : ¬ (idx < 0 ∨ (md.length : Int) ≤ idx)) (hget : md.get? idx.toNat = none) :
    searchLoop md f k ((idx, score) :: rest) count = searchLoop md f k rest count := by
  rw [searchLoop_cons_eq, if_neg hnn, hget]

theorem searchLoop_cons_some_eq (md : List IndexedChunk) (f : Option (List (String × String)))
    (k : Nat) (idx score : Int) (rest : List (Int × Int)) (count : Nat)
    (chunk : IndexedChunk) (hnn : ¬ (idx < 0 ∨ (md.length : Int) ≤ idx))
    (hget : md.get? idx.toNat = some chunk) :
    searchLoop md f k ((idx, score) :: rest) count =
      if truthyFilters f ∧ filterRejects f chunk then searchLoop md f k rest count
      else if count + 1 ≥ k then [{ chunk := chunk, score := score }]
      else { chunk := chunk, score := score } :: searchLoop md f k rest (count + 1) := by
  rw [searchLoop_cons_eq, if_neg hnn, hget]

theorem truthyFilters_of_lookup {fs : List (String × String)} {v : String}
    (hv : lookupKey fs "doc_id" = some v) : truthyFilters (some fs) = true := by
  cases fs with
  | nil => simp [lookupKey] at hv
  | cons p ps => simp [truthyFilters]

/-- Every result accepted by the candidate loop under a `doc_id` filter
has exactly the filtered `doc_id`. -/
theorem searchLoop_doc_filter (md : List IndexedChunk) (fs : List (String × String))
    (v : String) (k : Nat) (hv : lookupKey fs "doc_id" = some v) :
    ∀ (cands : List (Int × Int)) (count : Nat) (r : SearchResult),
      r ∈ searchLoop md (some fs) k cands count → r.chunk.base.doc_id = some v := by
  intro cands
  induction cands with
  | nil => intro count r hr; rw [searchLoop_nil_eq] at hr; simp at hr
  | cons c rest ih =>
    intro count r hr
    obtain ⟨idx, score⟩ := c
    by_cases h1 : idx < 0 ∨ (md.length : Int) ≤ idx
    · rw [searchLoop_skip_eq md _ k idx score rest count h1] at hr
      exact ih count r hr
    · cases hget : md.get? idx.toNat with
      | none =>
        rw [searchLoop_cons_none_eq md _ k idx score rest count h1 hget] at hr
        exact ih count r hr
      | some chunk =>
        rw [searchLoop_cons_some_eq md _ k idx score rest count chunk h1 hget] at hr
        by_cases hrej : filterRejects (some fs) chunk = true
        · rw [if_pos ⟨truthyFilters_of_lookup hv, hrej⟩] at hr
          exact ih count r hr
        · rw [if_neg (fun hand => hrej hand.2)] at hr
          have hdoc : chunk.base.doc_id = some v := by
            simp only [filterRejects, hv, Option.isSome_some, Bool.true_and,
              decide_eq_true_eq] at hrej
            simpa using hrej
          by_cases hk : count + 1 ≥ k
          · rw [if_pos hk] at hr
            simp only [List.mem_singleton] at hr
            rw [hr]
            exact hdoc
          · rw [if_neg hk] at hr
            rcases List.mem_cons.mp hr with h2 | h2
            · rw [h2]; exact hdoc
            · exact ih (count + 1) r h2

/-- The candidate loop never returns more than `k - count` results once
`count < k`. -/
theorem searchLoop_length_le (md : List IndexedChunk)
    (f : Option (List (String × String))) (k : Nat) :
    ∀ (cands : List (Int × Int)) (count : Nat), count < k →
      (searchLoop md f k cands count).length ≤ k - count := by
  intro cands
  induction cands with
  | nil => intro count h; rw [searchLoop_nil_eq]; simp
  | cons c rest ih =>
    intro count hck
    obtain ⟨idx, score⟩ := c
    by_cases h1 : idx < 0 ∨ (md.length : Int) ≤ idx
    · rw [searchLoop_skip_eq md f k idx score rest count h1]; exact ih count hck
    · cases hget : md.get? idx.toNat with
      | none =>
        rw [searchLoop_cons_none_eq md f k idx score rest count h1 hget]
        exact ih count hck
      | some chunk =>
        rw [searchLoop_cons_some_eq md f k idx score rest count chunk h1 hget]
        by_cases h2 : truthyFilters f = true ∧ filterRejects f chunk = true
        · rw [if_pos h2]; exact ih count hck
        · rw [if_neg h2]
          by_cases h3 : count + 1 ≥ k
          · rw [if_pos h3]; simp; omega
          · rw [if_neg h3]
            have := ih (count + 1) (by omega)
            rw [List.length_cons]
            omega

/-- When every metadata entry fails the `doc_id` filter, the loop returns
nothing. -/
theorem searchLoop_all_rejected (md : List IndexedChunk) (fs : List (String × String))
    (v : String) (k : Nat) (hv : lookupKey fs "doc_id" = some v)
    (hmd : ∀ ch ∈ md, ch.base.doc_id ≠ some v) :
    ∀ (cands : List (Int × Int)) (count : Nat),
      searchLoop md (some fs) k cands count = [] := by
  intro cands
  induction cands with
  | nil => intro count; rfl
  | cons c rest ih =>
    intro count
    obtain ⟨idx, score⟩ := c
    by_cases h1 : idx < 0 ∨ (md.length : Int) ≤ idx
    · rw [searchLoop_skip_eq md _ k idx score rest count h1]; exact ih count
    · cases hget : md.get? idx.toNat with
      | none =>
        rw [searchLoop_cons_none_eq md _ k idx score rest count h1 hget]
        exact ih count
      | some chunk =>
        have hdoc := hmd chunk (List.get?_mem hget)
        have hrej : filterRejects (some fs) chunk = true := by
          simp [filterRejects, hv, hdoc]
        rw [searchLoop_cons_some_eq md _ k idx score rest count chunk h1 hget,
          if_pos ⟨truthyFilters_of_lookup hv, hrej⟩]
        exact ih count

/-- A first candidate with a valid index and a matching `doc_id` makes the
loop return at least one result. -/
theorem searchLoop_first_accepted (md : List IndexedChunk) (fs : List (String × String))
    (v : String) (k : Nat) (idx score : Int) (rest : List (Int × Int)) (count : Nat)
    (hv : lookupKey fs "doc_id" = some v)
    (hnn : ¬ (idx < 0 ∨ (md.length : Int) ≤ idx))
    (hall : ∀ ch ∈ md, ch.base.doc_id = some v) :
    searchLoop md (some fs) k ((idx, score) :: rest) count ≠ [] := by
  cases hget : md.get? idx.toNat with
  | none =>
    rw [List.get?_eq_none] at hget
    omega
  | some chunk =>
    have hdoc := hall chunk (List.get?_mem hget)
    have hrej : filterRejects (some fs) chunk = false := by
      simp [filterRejects, hv, hdoc]
    rw [searchLoop_cons_some_eq md _ k idx score rest count chunk hnn hget,
      if_neg (fun hand => by simp [hrej] at hand)]
    by_cases h3 : count + 1 ≥ k
    · rw [if_pos h3]; simp
    · rw [if_neg h3]; simp

theorem search_none_eq (md : List IndexedChunk) (cand : Nat → List (Int × Int)) (k : Nat)
    (f : Option (List (String × String))) : search ⟨none, md⟩ cand k f = [] := rfl

theorem search_some_eq (rows : Mat) (md : List IndexedChunk)
    (cand : Nat → List (Int × Int)) (k : Nat) (f : Option (List (String × String))) :
    search ⟨some rows, md⟩ cand k f =
      if rows.length = 0 then []
      else searchLoop md f k (cand (min (searchK k f) rows.length)) 0 := rfl

/-! ### Claim C4 -/

/-- C4 (amended): every result returned under a `doc_id` filter carries the
filtered `doc_id`; a one-document index yields at least one result for
that document's filter and zero for a different one; the raw candidate
count is `k * 3` for a supplied non-empty filters mapping and `k` with no
filters, capped by `search` at the number of indexed vectors; and at most
`k` results come back under the FAISS contract on candidate counts. -/
theorem C4_search_doc_filter :
    (∀ (st : IndexerState) (cand : Nat → List (Int × Int)) (k : Nat)
        (fs : List (String × String)) (v : String) (r : SearchResult),
        lookupKey fs "doc_id" = some v → r ∈ search st cand k (some fs) →
        r.chunk.base.doc_id = some v) ∧
    (∀ (k : Nat) (fs : List (String × String)), fs ≠ [] → searchK k (some fs) = k * 3) ∧
    (∀ k : Nat, searchK k none = k) ∧
    (∀ (st : IndexerState) (cand : Nat → List (Int × Int)) (k : Nat)
        (filters : Option (List (String × String))),
        (∀ m, m ≤ searchK k filters → (cand m).length = m) →
        (search st cand k filters).length ≤ k) ∧
    (∀ (rows : Mat) (md : List IndexedChunk) (cand : Nat → List (Int × Int)) (k : Nat)
        (fs fs2 : List (String × String)) (v v2 : String),
        0 < rows.length → 0 < k →
        (cand (min (k * 3) rows.length)).length = min (k * 3) rows.length →
        (∀ p ∈ cand (min (k * 3) rows.length), 0 ≤ p.1 ∧ p.1 < (md.length : Int)) →
        lookupKey fs "doc_id" = some v →
        (∀ ch ∈ md, ch.base.doc_id = some v) →
        lookupKey fs2 "doc_id" = some v2 →
        v2 ≠ v →
        1 ≤ (search ⟨some rows, md⟩ cand k (some fs)).length ∧
        search ⟨some rows, md⟩ cand k (some fs2) = []) := by
  refine ⟨?_, ?_, ?_, ?_, ?_⟩
  · intro st cand k fs v r hv hr
    obtain ⟨oindex, md⟩ := st
    cases oindex with
    | none => rw [search_none_eq] at hr; simp at hr
    | some rows =>
      rw [search_some_eq] at hr
      by_cases hz : rows.length = 0
      · rw [if_pos hz] at hr; simp at hr
      · rw [if_neg hz] at hr
        exact searchLoop_doc_filter md fs v k hv _ 0 r hr
  · intro k fs hfs
    simp [searchK, truthyFilters, hfs]
  · intro k
    simp [searchK, truthyFilters]
  · intro st cand k filters hcand
    obtain ⟨oindex, md⟩ := st
    cases oindex with
    | none => rw [search_none_eq]; simp
    | some rows =>
      rw [search_some_eq]
      by_cases hz : rows.length = 0
      · rw [if_pos hz]; simp
      · rw [if_neg hz]
        rcases Nat.eq_zero_or_pos k with hk | hk
        · subst hk
          have hK : searchK 0 filters = 0 := by
            unfold searchK
            cases truthyFilters filters <;> simp
          have hlen : (cand (min (searchK 0 filters) rows.length)).length = 0 := by
            rw [hcand _ (by omega)]
            omega
          rw [List.length_eq_zero] at hlen
          rw [hlen, searchLoop_nil_eq]
          simp
        · have := searchLoop_length_le md filters k
            (cand (min (searchK k filters) rows.length)) 0 hk
          omega
  · intro rows md cand k fs fs2 v v2 hrows hk hclen hcbnd hv hall hv2 hne
    have hfs : fs ≠ [] := by
      intro heq; rw [heq] at hv; simp [lookupKey] at hv
    have hfs2 : fs2 ≠ [] := by
      intro heq; rw [heq] at hv2; simp [lookupKey] at hv2
    have hK : searchK k (some fs) = k * 3 := by simp [searchK, truthyFilters, hfs]
    have hK2 : searchK k (some fs2) = k * 3 := by simp [searchK, truthyFilters, hfs2]
    constructor
    · show 1 ≤ (search ⟨some rows, md⟩ cand k (some fs)).length
      have hz : ¬ (rows.length = 0) := by omega
      rw [search_some_eq, if_neg hz]
      simp only [hK]
      have hm : 0 < (cand (min (k * 3) rows.length)).length := by
        rw [hclen]
        have : 0 < k * 3 := by omega
        omega
      rcases hc : cand (min (k * 3) rows.length) with _ | ⟨⟨idx, score⟩, rest⟩
      · rw [hc] at hm; simp at hm
      · have hp := hcbnd (idx, score) (by rw [hc]; simp)
        have hnn : ¬ (idx < 0 ∨ (md.length : Int) ≤ idx) := by
          push_neg
          refine ⟨by omega, by omega⟩
        have hne2 := searchLoop_first_accepted md fs v k idx score rest 0 hv hnn hall
        exact Nat.one_le_iff_ne_zero.mpr (fun h0 => hne2 (List.length_eq_zero.mp h0))
    · show search ⟨some rows, md⟩ cand k (some fs2) = []
      have hz : ¬ (rows.length = 0) := by omega
      rw [search_some_eq, if_neg hz]
      refine searchLoop_all_rejected md fs2 v2 k hv2 ?_ _ 0
      intro ch hch
      rw [hall ch hch]
      simp only [ne_eq, Option.some.injEq]
      exact fun h => hne h.symm

/-- C4 as stated fails for a supplied-but-empty filters mapping: Python's
`if filters:` is false for an empty dict, so a call with `filters={}` uses
a raw candidate count of `k`, not `k * 3` (here `k = 1` against 3 indexed
vectors: the capped count is 1, while the claim's `k * 3` capped is 3). -/
theorem C4_searchK_empty_counterexample :
    ¬ (min (searchK 1 (some [])) 3 = min (1 * 3) 3) := by decide

theorem C4_search_doc_filter_witness :
    (⟨⟨⟨some "d", 0, "a"⟩, "d_chunk_0"⟩, 5⟩ : SearchResult).chunk.base.doc_id = some "d" ∧
    (1 ≤ (search ⟨some [[1], [2]],
          [⟨⟨some "d", 0, "a"⟩, "d_chunk_0"⟩, ⟨⟨some "d", 1, "b"⟩, "d_chunk_1"⟩]⟩
        (fun _ => [(0, 9), (1, 8)]) 1 (some [("doc_id", "d")])).length ∧
      search ⟨some [[1], [2]],
          [⟨⟨some "d", 0, "a"⟩, "d_chunk_0"⟩, ⟨⟨some "d", 1, "b"⟩, "d_chunk_1"⟩]⟩
        (fun _ => [(0, 9), (1, 8)]) 1 (some [("doc_id", "x")]) = []) ∧
    (search ⟨some [[1]], [⟨⟨some "d", 0, "a"⟩, "d_chunk_0"⟩]⟩
        (fun m => List.replicate m ((0 : Int), (0 : Int))) 2 none).length ≤ 2 := by
  refine ⟨?_, ?_, ?_⟩
  · exact C4_search_doc_filter.1 ⟨some [[1]], [⟨⟨some "d", 0, "a"⟩, "d_chunk_0"⟩]⟩
      (fun _ => [(0, 5)]) 1 [("doc_id", "d")] "d" ⟨⟨⟨some "d", 0, "a"⟩, "d_chunk_0"⟩, 5⟩
      (by decide) (by decide)
  · exact C4_search_doc_filter.2.2.2.2 [[1], [2]]
      [⟨⟨some "d", 0, "a"⟩, "d_chunk_0"⟩, ⟨⟨some "d", 1, "b"⟩, "d_chunk_1"⟩]
      (fun _ => [(0, 9), (1, 8)]) 1 [("doc_id", "d")] [("doc_id", "x")] "d" "x"
      (by decide) (by decide) (by decide) (by decide) (by decide) (by decide)
      (by decide) (by decide)
  · exact C4_search_doc_filter.2.2.2.1 ⟨some [[1]], [⟨⟨some "d", 0, "a"⟩, "d_chunk_0"⟩]⟩
      (fun m => List.replicate m ((0 : Int), (0 : Int))) 2 none
      (fun m _ => by rw [List.length_replicate])

end MedLaw
